import Mathlib

/-!
A shallow embedding of the `kvs` storage engine (`src/lib.rs`) and proofs
about it.

Modelling conventions:

* The log file `kvs.db` is modelled as a `List LogEntry` of the decoded
  records, in file order.  Because the speedy codec is self-delimiting and
  records are written back-to-back, every record boundary is identified by
  the byte offset of its first byte; the model identifies that byte offset
  with the *record index* in the list.  Seeking to end-of-file yields
  `log.length`; decoding one record at offset `o` succeeds exactly when
  `o` is a valid boundary, i.e. `log[o]? = some e` (a read past the end
  models speedy's EOF/decode failure).
* The `HashMap<String, u64>` cache is modelled as an association list
  `List (String × Nat)`; `insert` overwrites the binding in place,
  `remove` deletes it, as for the hash map.  Iteration order of the hash
  map is unspecified; the model iterates in list order.
* File-system failures (open, seek, write, flush, sync, rename) are not
  modelled on the success paths; the only errors that can arise in the
  model are the ones the engine itself raises from its in-memory data
  (`RemoveNonexistentKey`, and the corruption errors during lookups and
  compaction).  The state the engine is left in when an *append* fails is
  modelled explicitly by `setAppendFail` / `removeAppendFail`, which stop
  at the exact point of `write_to_stream`'s early return.
-/

namespace Kvs

/-- `LogEntry` from `src/lib.rs` (lines 160-165): a tagged record,
`Set { key, value }` or `Remove { key }`. -/
inductive LogEntry where
  | set (key value : String)
  | remove (key : String)
deriving DecidableEq, Repr

/-- The key carried by a record (either variant). -/
def LogEntry.entryKey : LogEntry → String
  | .set k _ => k
  | .remove k => k

/-- `KvsError` from `src/lib.rs` (lines 24-158), keeping only the fields
that are data (filenames and io/speedy error sources are dropped). -/
inductive KvsError where
  | openLog
  | logParse (entry_number : Nat)
  | logAppendSet (key value : String)
  | logAppendRemove (key : String)
  | removeNonexistentKey (key : String)
  | logSync (key : String)
  | getPosition
  | logLookup (key : String) (offs : Nat)
  | logEntryKindInvalid (key found_key : String) (offs : Nat)
  | logEntryKeyMismatch (key found_key : String) (offs : Nat)
  | compactionFlushFailed
  | compactionSyncFailed
  | compactionRenameFailed
deriving DecidableEq, Repr

/-- Association-list lookup, modelling `HashMap::get`: the value bound to
`k`, if any. -/
def lookupA {α : Type} : List (String × α) → String → Option α
  | [], _ => none
  | p :: rest, k => if p.1 = k then some p.2 else lookupA rest k

/-- Association-list insert-or-overwrite, modelling `HashMap::insert` /
`entry().and_modify().or_insert()`: replaces the binding of `k` if
present, otherwise appends a new binding. -/
def insertA {α : Type} : List (String × α) → String → α → List (String × α)
  | [], k, v => [(k, v)]
  | p :: rest, k, v => if p.1 = k then (k, v) :: rest else p :: insertA rest k v

/-- Association-list delete, modelling `HashMap::remove`. -/
def eraseA {α : Type} (c : List (String × α)) (k : String) : List (String × α) :=
  c.filter (fun p => p.1 != k)

/-- The keys of an association list, in order. -/
def keysA {α : Type} (c : List (String × α)) : List String :=
  c.map Prod.fst

/-- The in-memory cache: key to byte offset of that key's latest `Set`
record (`cache: HashMap<String, u64>` in `KvStore`). -/
abbrev Cache := List (String × Nat)

/-- `KvStore` from `src/lib.rs` (lines 175-184).  `log` is the decoded
content of the file currently held by `log_f`; the path fields are
dropped (no claim mentions them). -/
structure KvStore where
  log : List LogEntry
  cache : Cache
  modification_ct : Nat
  safe : Bool
deriving DecidableEq, Repr

/-- `COMPACT_MODIFICATION_CT` (line 168): after 20 modifications to
existing keys, run compaction. -/
def COMPACT_MODIFICATION_CT : Nat := 20

/-- Externally visible actions performed by `maybe_compact`, in the order
the source performs them; used to state temporal claims about the
procedure. -/
inductive CEvent where
  | openTmp
  | writeRecord (key : String)
  | flushTmp
  | syncTmp
  | adoptHandle
  | renameTmp
  | replaceIndex
deriving DecidableEq, Repr

/-- The per-entry loop of `maybe_compact` (`src/lib.rs` lines 270-304):
for each `(key, offs)` of the old cache, seek the old log to `offs` and
decode one record (`log[o]?`; a failed read is `LogLookup`), require it
to be `Set` for that very key (`LogEntryKindInvalid` / `LogEntryKeyMismatch`
otherwise), record the temp file's current end as the new offset in
`new_cache`, and append the record to the temp log. -/
def compactLoop (log : List LogEntry) :
    List (String × Nat) → List LogEntry → Cache →
    Except KvsError (List LogEntry × Cache)
  | [], newLog, newCache => .ok (newLog, newCache)
  | (k, o) :: rest, newLog, newCache =>
    match log[o]? with
    | none => .error (.logLookup k o)
    | some (.set foundKey v) =>
      if foundKey = k then
        compactLoop log rest (newLog ++ [.set k v]) (insertA newCache k newLog.length)
      else
        .error (.logEntryKeyMismatch k foundKey o)
    | some (.remove foundKey) => .error (.logEntryKindInvalid k foundKey o)

/-- `KvStore::maybe_compact` (`src/lib.rs` lines 251-320), additionally
returning the ordered trace of externally visible actions.  Below the
threshold it returns immediately with an empty trace.  Otherwise it opens
the temp file, runs the per-entry loop, flushes and syncs the temp file,
then — mirroring source lines 314-317 exactly — adopts the temp file
handle as `log_f` (`adoptHandle`), renames the temp path over the log
path (`renameTmp`), and replaces the cache (`replaceIndex`).  Note that
the source never resets `modification_ct`; the model faithfully leaves it
unchanged. -/
def maybeCompactEv (s : KvStore) : Except KvsError (KvStore × List CEvent) :=
  if s.modification_ct < COMPACT_MODIFICATION_CT then
    .ok (s, [])
  else
    match compactLoop s.log s.cache [] [] with
    | .error e => .error e
    | .ok (newLog, newCache) =>
      .ok ({ s with log := newLog, cache := newCache },
        .openTmp :: (s.cache.map (fun p => .writeRecord p.1) ++
          [.flushTmp, .syncTmp, .adoptHandle, .renameTmp, .replaceIndex]))

/-- `maybe_compact` viewed as a state transformer (trace dropped). -/
def maybeCompact (s : KvStore) : Except KvsError KvStore :=
  (maybeCompactEv s).map Prod.fst

/-- `maybe_compact` when compaction is enabled, or the identity when it is
disabled; the disabled variant is used only to state compaction
transparency. -/
def maybeCompactIf (doCompact : Bool) (s : KvStore) : Except KvsError KvStore :=
  if doCompact then maybeCompact s else .ok s

/-- The in-memory part of `KvStore::set` (`src/lib.rs` lines 324-333),
performed before the record is appended: read the end-of-file offset,
increment `modification_ct` if `key` is already live, and point the cache
at the new offset. -/
def setIndexUpdate (s : KvStore) (k : String) : KvStore :=
  let offs := s.log.length
  { s with
    modification_ct :=
      if (lookupA s.cache k).isSome then s.modification_ct + 1 else s.modification_ct,
    cache := insertA s.cache k offs }

/-- `KvStore::set` (`src/lib.rs` lines 323-345) on the path where the
append succeeds: index update, append of `Set{key, value}`, then
`maybe_compact` (the trailing `sync_all` is a no-op in the model and
cannot fail there).  Returns the final state, or the pre-compaction state
together with the error when `maybe_compact` fails (in the model every
compaction error occurs before `maybe_compact` mutates the engine). -/
def setOp (doCompact : Bool) (s : KvStore) (k v : String) :
    KvStore × Option KvsError :=
  let s2 := { setIndexUpdate s k with log := s.log ++ [.set k v] }
  match maybeCompactIf doCompact s2 with
  | .error e => (s2, some e)
  | .ok s3 => (s3, none)

/-- The state `KvStore::set` leaves behind when `write_to_stream` fails
(`src/lib.rs` lines 335-336): the index update has already happened, the
log is unchanged, and the `LogAppendSet` error is returned. -/
def setAppendFail (s : KvStore) (k v : String) : KvStore × KvsError :=
  (setIndexUpdate s k, .logAppendSet k v)

/-- `KvStore::remove` (`src/lib.rs` lines 382-407) on the path where the
append succeeds: if `key` is absent, return `RemoveNonexistentKey` with
the state untouched; otherwise increment `modification_ct`, delete the
key, append `Remove{key}`, and run `maybe_compact`. -/
def removeOp (doCompact : Bool) (s : KvStore) (k : String) :
    KvStore × Option KvsError :=
  match lookupA s.cache k with
  | none => (s, some (.removeNonexistentKey k))
  | some _ =>
    let s2 : KvStore :=
      { s with
        modification_ct := s.modification_ct + 1,
        cache := eraseA s.cache k,
        log := s.log ++ [.remove k] }
    match maybeCompactIf doCompact s2 with
    | .error e => (s2, some e)
    | .ok s3 => (s3, none)

/-- The state `KvStore::remove` leaves behind when `write_to_stream` fails
(`src/lib.rs` lines 394-395): the key is already deleted and the counter
already incremented, the log is unchanged, and `LogAppendRemove` is
returned.  (This state only arises when the key was present; otherwise
`remove` returned earlier.) -/
def removeAppendFail (s : KvStore) (k : String) : KvStore × KvsError :=
  ({ s with
      modification_ct := s.modification_ct + 1,
      cache := eraseA s.cache k },
    .logAppendRemove k)

/-- `KvStore::get` (`src/lib.rs` lines 348-379): look up the offset; if
absent return `None`; otherwise decode one record at that offset and
require it to be `Set` for this very key. -/
def getRun (s : KvStore) (k : String) : Except KvsError (Option String) :=
  match lookupA s.cache k with
  | none => .ok none
  | some offs =>
    match s.log[offs]? with
    | none => .error (.logLookup k offs)
    | some (.set foundKey v) =>
      if foundKey = k then .ok (some v)
      else .error (.logEntryKeyMismatch k foundKey offs)
    | some (.remove foundKey) => .error (.logEntryKindInvalid k foundKey offs)

/-- A public engine call, for stating properties of call sequences. -/
inductive Op where
  | set (key value : String)
  | remove (key : String)
  | get (key : String)
deriving DecidableEq, Repr

/-- Whether an operation is a `set` or `remove` of key `k`. -/
def touches (k : String) : Op → Bool
  | .set k' _ => k' == k
  | .remove k' => k' == k
  | .get _ => false

/-- One public call as a state transition (`get` leaves the state
unchanged; in-model `set` and `remove` fail only through the errors
`removeOp`/`setOp` can produce). -/
def stepOp (doCompact : Bool) (s : KvStore) : Op → Except KvsError KvStore
  | .set k v =>
    match setOp doCompact s k v with
    | (s', none) => .ok s'
    | (_, some e) => .error e
  | .remove k =>
    match removeOp doCompact s k with
    | (s', none) => .ok s'
    | (_, some e) => .error e
  | .get k =>
    match getRun s k with
    | .ok _ => .ok s
    | .error e => .error e

/-- A sequence of public calls, stopping at the first error. -/
def runOps (doCompact : Bool) (s : KvStore) : List Op → Except KvsError KvStore
  | [] => .ok s
  | op :: rest =>
    match stepOp doCompact s op with
    | .error e => .error e
    | .ok s' => runOps doCompact s' rest

/-- Cache and counter built by the recovery loop of `KvStore::open`. -/
structure ReplayState where
  cache : Cache
  modification_ct : Nat
deriving DecidableEq, Repr

/-- One iteration of the recovery loop of `KvStore::open`
(`src/lib.rs` lines 216-231), at read offset `offs`: a `Set` increments
`modification_ct` exactly when the key is already live and points the
cache at `offs`; a `Remove` increments `modification_ct` (unconditionally
in the source) and deletes the key. -/
def replayStep (c : Cache) (ct : Nat) (offs : Nat) : LogEntry → ReplayState
  | .set k _ =>
    ⟨insertA c k offs, if (lookupA c k).isSome then ct + 1 else ct⟩
  | .remove k => ⟨eraseA c k, ct + 1⟩

/-- The recovery loop over the remaining records, `offs` being the offset
of the next record. -/
def replayAux (c : Cache) (ct : Nat) (offs : Nat) : List LogEntry → ReplayState
  | [] => ⟨c, ct⟩
  | e :: rest =>
    let st := replayStep c ct offs e
    replayAux st.cache st.modification_ct (offs + 1) rest

/-- `KvStore::open` (`src/lib.rs` lines 188-249) given the decoded
records of the log file: rebuild cache and counter by the recovery loop,
construct the engine with `safe = false`, and immediately run
`maybe_compact`.  (Parse failures cannot arise in the model because the
input is already the list of decoded records.) -/
def openModel (log : List LogEntry) : Except KvsError KvStore :=
  let st := replayAux [] 0 0 log
  maybeCompact
    { log := log, cache := st.cache, modification_ct := st.modification_ct, safe := false }

/-- The engine obtained by opening an empty directory: empty log, empty
cache, counter zero, `safe = false`. -/
def store0 : KvStore := { log := [], cache := [], modification_ct := 0, safe := false }

/-- Whether the record at cache entry `p`'s offset decodes to a `Set`
whose key is `p`'s key. -/
def entrySetFor (log : List LogEntry) (p : String × Nat) : Bool :=
  match log[p.2]? with
  | some (.set k _) => k == p.1
  | _ => false

/-- Invariant 1 of the spec: every key in the Index points at an offset
where decoding one record succeeds and yields a `Set` record for that
key. -/
def Inv (s : KvStore) : Prop :=
  ∀ p ∈ s.cache, entrySetFor s.log p = true

instance (s : KvStore) : Decidable (Inv s) :=
  List.decidableBAll _ s.cache

/-- Well-formedness of the cache as a model of a `HashMap`: its keys are
pairwise distinct. -/
def WF (s : KvStore) : Prop :=
  (keysA s.cache).Nodup

instance (s : KvStore) : Decidable (WF s) :=
  List.nodupDecidable _

/-- The key `k` is bound in the cache to an offset holding exactly the
record `Set{k, v}`. -/
def PointsTo (s : KvStore) (k v : String) : Prop :=
  ∃ o, lookupA s.cache k = some o ∧ s.log[o]? = some (.set k v)

/-- The value the engine associates to `k`: the value of the `Set` record
at the cached offset, when everything is consistent. -/
def viewS (s : KvStore) (k : String) : Option String :=
  match lookupA s.cache k with
  | none => none
  | some o =>
    match s.log[o]? with
    | some (.set foundKey v) => if foundKey = k then some v else none
    | _ => none

/-- The purely functional reference model of the store: an association
list from keys to values. -/
abbrev AbsMap := List (String × String)

/-- The reference semantics of one call on the functional model. -/
def absStep (m : AbsMap) : Op → Except KvsError AbsMap
  | .set k v => .ok (insertA m k v)
  | .remove k =>
    if (lookupA m k).isSome then .ok (eraseA m k)
    else .error (.removeNonexistentKey k)
  | .get _ => .ok m

/-- The reference semantics of a call sequence. -/
def absRun (m : AbsMap) : List Op → Except KvsError AbsMap
  | [] => .ok m
  | op :: rest =>
    match absStep m op with
    | .error e => .error e
    | .ok m' => absRun m' rest

/-- The cache produced by compaction when the old cache's keys are
distinct: the i-th processed key is bound to offset `base + i`. -/
def offsetsFrom : Nat → List (String × Nat) → Cache
  | _, [] => []
  | base, p :: rest => (p.1, base) :: offsetsFrom (base + 1) rest

/-- The value stored at a cache entry's offset (defaulting to `""` where
the entry is inconsistent; only used where consistency is proved). -/
def valueAtD (log : List LogEntry) (p : String × Nat) : String :=
  match log[p.2]? with
  | some (.set _ v) => v
  | _ => ""

/-- Scans a compaction trace and checks that, when an `adoptHandle` event
occurs, a `renameTmp` event has already occurred: the formal reading of
"the new file handle is adopted only after the rename". -/
def renameSeenBeforeAdopt (seen : Bool) : List CEvent → Bool
  | [] => true
  | .renameTmp :: rest => renameSeenBeforeAdopt true rest
  | .adoptHandle :: rest => seen && renameSeenBeforeAdopt seen rest
  | _ :: rest => renameSeenBeforeAdopt seen rest

theorem lookupA_insertA_self {α : Type} (c : List (String × α)) (k : String) (v : α) :
    lookupA (insertA c k v) k = some v := by
  induction c with
  | nil => simp [insertA, lookupA]
  | cons p rest ih =>
    by_cases h : p.1 = k
    · simp [insertA, h, lookupA]
    · simp [insertA, h, lookupA, ih]

theorem lookupA_insertA_ne {α : Type} (c : List (String × α)) {k k' : String} (v : α)
    (h : k' ≠ k) : lookupA (insertA c k' v) k = lookupA c k := by
  induction c with
  | nil => simp [insertA, lookupA, h]
  | cons p rest ih =>
    by_cases hp : p.1 = k'
    · simp [insertA, hp, lookupA, h, hp ▸ h]
    · simp [insertA, hp, lookupA, ih]

theorem eraseA_cons {α : Type} (p : String × α) (rest : List (String × α)) (k : String) :
    eraseA (p :: rest) k = if p.1 = k then eraseA rest k else p :: eraseA rest k := by
  by_cases h : p.1 = k <;> simp [eraseA, List.filter_cons, h]

theorem lookupA_eraseA_self {α : Type} (c : List (String × α)) (k : String) :
    lookupA (eraseA c k) k = none := by
  induction c with
  | nil => simp [eraseA, lookupA]
  | cons p rest ih =>
    rw [eraseA_cons]
    by_cases h : p.1 = k
    · simpa [h] using ih
    · simp [h, lookupA, ih]

theorem lookupA_eraseA_ne {α : Type} (c : List (String × α)) {k k' : String}
    (h : k' ≠ k) : lookupA (eraseA c k') k = lookupA c k := by
  induction c with
  | nil => simp [eraseA, lookupA]
  | cons p rest ih =>
    rw [eraseA_cons]
    by_cases hp : p.1 = k'
    · have hk : p.1 ≠ k := hp ▸ h
      simp [hp, lookupA, hk, h, ih]
    · by_cases hk : p.1 = k <;> simp [hp, hk, lookupA, ih, Ne.symm h]

theorem lookupA_mem {α : Type} {c : List (String × α)} {k : String} {v : α}
    (h : lookupA c k = some v) : (k, v) ∈ c := by
  induction c with
  | nil => simp [lookupA] at h
  | cons p rest ih =>
    by_cases hp : p.1 = k
    · simp [lookupA, hp] at h
      rcases p with ⟨a, b⟩
      simp only at hp h
      subst hp
      subst h
      exact List.mem_cons_self _ _
    · simp [lookupA, hp] at h
      exact .tail _ (ih h)

theorem lookupA_none_iff {α : Type} (c : List (String × α)) (k : String) :
    lookupA c k = none ↔ k ∉ keysA c := by
  induction c with
  | nil => simp [lookupA, keysA]
  | cons p rest ih =>
    by_cases hp : p.1 = k
    · simp [lookupA, hp, keysA]
    · simp [lookupA, hp, keysA, Ne.symm hp] at ih ⊢
      exact ih

theorem lookupA_isSome_iff {α : Type} (c : List (String × α)) (k : String) :
    (lookupA c k).isSome = true ↔ k ∈ keysA c := by
  cases h : lookupA c k with
  | none => simp [(lookupA_none_iff c k).mp h]
  | some v =>
    simp only [Option.isSome_some, true_iff]
    exact List.mem_map_of_mem Prod.fst (lookupA_mem h)

theorem lookupA_eq_of_mem_nodup {α : Type} {c : List (String × α)} {k : String} {v : α}
    (hnd : (keysA c).Nodup) (h : (k, v) ∈ c) : lookupA c k = some v := by
  induction c with
  | nil => simp at h
  | cons p rest ih =>
    simp only [keysA, List.map_cons, List.nodup_cons] at hnd
    rcases List.mem_cons.mp h with h1 | h1
    · rw [← h1]; simp [lookupA]
    · have hp : p.1 ≠ k := by
        intro e
        exact hnd.1 (by rw [e]; exact List.mem_map_of_mem Prod.fst h1)
      simp only [lookupA, if_neg hp]
      exact ih hnd.2 h1

theorem mem_insertA {α : Type} {c : List (String × α)} {p : String × α} {k : String} {v : α}
    (h : p ∈ insertA c k v) : p = (k, v) ∨ p ∈ c := by
  induction c with
  | nil => simpa [insertA] using h
  | cons q rest ih =>
    by_cases hq : q.1 = k
    · simp [insertA, hq] at h
      rcases h with h | h
      · exact .inl h
      · exact .inr (.tail _ h)
    · simp [insertA, hq] at h
      rcases h with h | h
      · exact .inr (h ▸ List.mem_cons_self q rest)
      · rcases ih h with h1 | h1
        · exact .inl h1
        · exact .inr (.tail _ h1)

theorem mem_eraseA {α : Type} {c : List (String × α)} {p : String × α} {k : String}
    (h : p ∈ eraseA c k) : p ∈ c :=
  List.mem_of_mem_filter h

theorem insertA_eq_append {α : Type} {c : List (String × α)} {k : String} (v : α)
    (h : k ∉ keysA c) : insertA c k v = c ++ [(k, v)] := by
  induction c with
  | nil => simp [insertA]
  | cons p rest ih =>
    simp [keysA] at h
    have hp : p.1 ≠ k := fun e => h.1 (by simp [e])
    simp [insertA, hp]
    exact ih (by simpa [keysA] using h.2)

theorem keysA_insertA_mem {α : Type} {c : List (String × α)} {k : String} (v : α)
    (h : k ∈ keysA c) : keysA (insertA c k v) = keysA c := by
  induction c with
  | nil => simp [keysA] at h
  | cons p rest ih =>
    by_cases hp : p.1 = k
    · simp [insertA, hp, keysA]
    · have hrest : k ∈ keysA rest := by
        simp only [keysA, List.map_cons, List.mem_cons] at h
        rcases h with h | h
        · exact absurd h.symm hp
        · exact h
      have heq : keysA (insertA rest k v) = keysA rest := ih hrest
      simp only [insertA, if_neg hp, keysA, List.map_cons] at heq ⊢
      rw [heq]

theorem keysA_eraseA {α : Type} (c : List (String × α)) (k : String) :
    keysA (eraseA c k) = (keysA c).filter (fun x => x != k) := by
  induction c with
  | nil => simp [eraseA, keysA]
  | cons p rest ih =>
    rw [eraseA_cons]
    by_cases hp : p.1 = k
    · simp [hp, keysA, List.filter_cons]
      simpa [keysA] using ih
    · simp [hp, keysA, List.filter_cons]
      simpa [keysA] using ih

theorem nodup_keysA_insertA {α : Type} {c : List (String × α)} (k : String) (v : α)
    (h : (keysA c).Nodup) : (keysA (insertA c k v)).Nodup := by
  by_cases hm : k ∈ keysA c
  · rw [keysA_insertA_mem v hm]; exact h
  · rw [insertA_eq_append v hm]
    have heq : keysA (c ++ [(k, v)]) = keysA c ++ [k] := by simp [keysA]
    rw [heq, List.nodup_append]
    refine ⟨h, List.nodup_singleton k, ?_⟩
    intro a ha hb
    simp only [List.mem_singleton] at hb
    subst hb
    exact hm ha

theorem nodup_keysA_eraseA {α : Type} {c : List (String × α)} (k : String)
    (h : (keysA c).Nodup) : (keysA (eraseA c k)).Nodup := by
  rw [keysA_eraseA]
  exact h.filter _

theorem lookupA_append_of_none {α : Type} {c1 : List (String × α)} (c2 : List (String × α))
    {k : String} (h : lookupA c1 k = none) : lookupA (c1 ++ c2) k = lookupA c2 k := by
  induction c1 with
  | nil => simp
  | cons p rest ih =>
    by_cases hp : p.1 = k
    · simp [lookupA, hp] at h
    · simp [lookupA, hp] at h ⊢
      exact ih h

theorem lookupA_append_of_some {α : Type} {c1 : List (String × α)} (c2 : List (String × α))
    {k : String} {v : α} (h : lookupA c1 k = some v) : lookupA (c1 ++ c2) k = some v := by
  induction c1 with
  | nil => simp [lookupA] at h
  | cons p rest ih =>
    by_cases hp : p.1 = k
    · simp [lookupA, hp] at h ⊢
      exact h
    · simp [lookupA, hp] at h ⊢
      exact ih h

theorem keysA_offsetsFrom (b : Nat) (c : List (String × Nat)) :
    keysA (offsetsFrom b c) = keysA c := by
  induction c generalizing b with
  | nil => simp [offsetsFrom]
  | cons p rest ih => simp [offsetsFrom, keysA] at ih ⊢; exact ih _

theorem offsetsFrom_lookup {cc : List (String × Nat)} {k : String} {o : Nat}
    (hnd : (keysA cc).Nodup) (h : (k, o) ∈ cc) (b : Nat) :
    ∃ i, lookupA (offsetsFrom b cc) k = some (b + i) ∧ cc[i]? = some (k, o) := by
  induction cc generalizing b with
  | nil => simp at h
  | cons p rest ih =>
    simp only [keysA, List.map_cons, List.nodup_cons] at hnd
    rcases List.mem_cons.mp h with h1 | h1
    · refine ⟨0, ?_, ?_⟩
      · simp [offsetsFrom, lookupA, ← h1]
      · simp [← h1]
    · have hp : p.1 ≠ k := by
        intro e
        exact hnd.1 (by rw [e]; exact List.mem_map_of_mem Prod.fst h1)
      rcases ih hnd.2 h1 (b + 1) with ⟨i, hl, hg⟩
      exact ⟨i + 1, by simpa [offsetsFrom, lookupA, hp, Nat.add_assoc, Nat.add_comm 1 i] using hl,
        by simpa using hg⟩

theorem mem_offsetsFrom {p : String × Nat} :
    ∀ (b : Nat) (cc : List (String × Nat)), p ∈ offsetsFrom b cc →
      ∃ i q, cc[i]? = some q ∧ p = (q.1, b + i) := by
  intro b cc
  induction cc generalizing b with
  | nil => simp [offsetsFrom]
  | cons q rest ih =>
    intro h
    rcases List.mem_cons.mp h with h1 | h1
    · exact ⟨0, q, by simp, by simpa using h1⟩
    · rcases ih (b + 1) h1 with ⟨i, q', hg, he⟩
      exact ⟨i + 1, q', by simpa using hg, by simpa [Nat.add_assoc, Nat.add_comm 1 i] using he⟩

theorem compactLoop_ok_char {log : List LogEntry} :
    ∀ (entries : List (String × Nat)) (nl nl' : List LogEntry) (nc nc' : Cache),
      (keysA nc ++ keysA entries).Nodup →
      compactLoop log entries nl nc = .ok (nl', nc') →
      nl' = nl ++ entries.map (fun p => LogEntry.set p.1 (valueAtD log p)) ∧
      nc' = nc ++ offsetsFrom nl.length entries ∧
      ∀ p ∈ entries, ∃ v, log[p.2]? = some (.set p.1 v) := by
  intro entries
  induction entries with
  | nil =>
    intro nl nl' nc nc' _ h
    simp [compactLoop] at h
    simp [offsetsFrom, h.1, h.2]
  | cons p rest ih =>
    intro nl nl' nc nc' hnd h
    rcases p with ⟨k, o⟩
    cases hlog : log[o]? with
    | none => simp [compactLoop, hlog] at h
    | some e =>
      cases e with
      | remove fk => simp [compactLoop, hlog] at h
      | set fk v =>
        by_cases hk : fk = k
        · simp only [compactLoop, hlog] at h
          rw [if_pos hk] at h
          subst hk
          have hknc : fk ∉ keysA nc := by
            have hdisj := List.nodup_append.mp hnd
            intro hmem
            exact hdisj.2.2 hmem (by simp [keysA])
          rw [insertA_eq_append (nl.length) hknc] at h
          have hnd' : (keysA (nc ++ [(fk, nl.length)]) ++ keysA rest).Nodup := by
            have h1 : keysA (nc ++ [(fk, nl.length)]) ++ keysA rest
                = keysA nc ++ (fk :: keysA rest) := by
              simp [keysA]
            rw [h1]
            simpa [keysA] using hnd
          rcases ih (nl ++ [.set fk v]) nl' (nc ++ [(fk, nl.length)]) nc' hnd' h with
            ⟨h1, h2, h3⟩
          refine ⟨?_, ?_, ?_⟩
          · rw [h1]
            simp [valueAtD, hlog]
          · rw [h2]
            simp [offsetsFrom, List.append_assoc]
          · intro q hq
            rcases List.mem_cons.mp hq with hq1 | hq1
            · exact ⟨v, by rw [hq1]; simpa using hlog⟩
            · exact h3 q hq1
        · simp [compactLoop, hlog, hk] at h

theorem compactLoop_ok_of_consistent {log : List LogEntry} :
    ∀ (entries : List (String × Nat)) (nl : List LogEntry) (nc : Cache),
      (∀ p ∈ entries, entrySetFor log p = true) →
      ∃ r, compactLoop log entries nl nc = .ok r := by
  intro entries
  induction entries with
  | nil => intro nl nc _; exact ⟨_, rfl⟩
  | cons p rest ih =>
    intro nl nc hall
    rcases p with ⟨k, o⟩
    have hp := hall (k, o) (List.mem_cons_self _ _)
    simp only [entrySetFor] at hp
    cases hlog : log[o]? with
    | none => rw [hlog] at hp; simp at hp
    | some e =>
      cases e with
      | remove fk => rw [hlog] at hp; simp at hp
      | set fk v =>
        rw [hlog] at hp
        simp only [beq_iff_eq] at hp
        rcases ih (nl ++ [.set k v]) (insertA nc k nl.length)
          (fun q hq => hall q (List.mem_cons_of_mem _ hq)) with ⟨r, hr⟩
        exact ⟨r, by simp [compactLoop, hlog, hp, hr]⟩

theorem compactLoop_error_shape {log : List LogEntry} :
    ∀ (entries : List (String × Nat)) (nl : List LogEntry) (nc : Cache) (e : KvsError),
      compactLoop log entries nl nc = .error e →
      (∃ k o, e = .logLookup k o) ∨ (∃ k fk o, e = .logEntryKeyMismatch k fk o) ∨
      (∃ k fk o, e = .logEntryKindInvalid k fk o) := by
  intro entries
  induction entries with
  | nil => intro nl nc e h; simp [compactLoop] at h
  | cons p rest ih =>
    intro nl nc e h
    rcases p with ⟨k, o⟩
    cases hlog : log[o]? with
    | none =>
      simp [compactLoop, hlog] at h
      exact .inl ⟨k, o, h.symm⟩
    | some en =>
      cases en with
      | remove fk =>
        simp [compactLoop, hlog] at h
        exact .inr (.inr ⟨k, fk, o, h.symm⟩)
      | set fk v =>
        by_cases hk : fk = k
        · simp only [compactLoop, hlog, if_pos hk] at h
          exact ih _ _ _ h
        · simp [compactLoop, hlog, hk] at h
          exact .inr (.inl ⟨k, fk, o, h.symm⟩)

theorem maybeCompactEv_below {s : KvStore}
    (h : s.modification_ct < COMPACT_MODIFICATION_CT) :
    maybeCompactEv s = .ok (s, []) := by
  simp [maybeCompactEv, h]

theorem maybeCompactEv_cases {s : KvStore} {r : KvStore × List CEvent}
    (h : maybeCompactEv s = .ok r) :
    (s.modification_ct < COMPACT_MODIFICATION_CT ∧ r = (s, [])) ∨
    (COMPACT_MODIFICATION_CT ≤ s.modification_ct ∧
      ∃ nl nc, compactLoop s.log s.cache [] [] = .ok (nl, nc) ∧
        r = ({ s with log := nl, cache := nc },
          .openTmp :: (s.cache.map (fun p => .writeRecord p.1) ++
            [.flushTmp, .syncTmp, .adoptHandle, .renameTmp, .replaceIndex]))) := by
  by_cases hct : s.modification_ct < COMPACT_MODIFICATION_CT
  · rw [maybeCompactEv_below hct] at h
    left
    exact ⟨hct, by injection h with h1; exact h1.symm⟩
  · right
    refine ⟨Nat.le_of_not_lt hct, ?_⟩
    simp only [maybeCompactEv, if_neg hct] at h
    cases hcl : compactLoop s.log s.cache [] [] with
    | error e => rw [hcl] at h; exact absurd h (by simp)
    | ok q =>
      rcases q with ⟨nl, nc⟩
      rw [hcl] at h
      refine ⟨nl, nc, rfl, ?_⟩
      injection h with h1
      exact h1.symm

theorem maybeCompact_ok_iff {s s' : KvStore} :
    maybeCompact s = .ok s' ↔ ∃ tr, maybeCompactEv s = .ok (s', tr) := by
  unfold maybeCompact
  cases h : maybeCompactEv s with
  | error e => simp [Except.map]
  | ok r =>
    rcases r with ⟨s1, tr⟩
    simp only [Except.map]
    constructor
    · intro he
      injection he with h1
      exact ⟨tr, by rw [h1]⟩
    · rintro ⟨tr', he⟩
      injection he with h1
      rw [Prod.mk.injEq] at h1
      rw [h1.1]

theorem maybeCompact_error_iff {s : KvStore} {e : KvsError} :
    maybeCompact s = .error e ↔ maybeCompactEv s = .error e := by
  unfold maybeCompact
  cases h : maybeCompactEv s with
  | error e' => simp [Except.map]
  | ok r => simp [Except.map]

theorem maybeCompact_ct {s s' : KvStore} (h : maybeCompact s = .ok s') :
    s'.modification_ct = s.modification_ct := by
  rcases maybeCompact_ok_iff.mp h with ⟨tr, hev⟩
  rcases maybeCompactEv_cases hev with ⟨_, heq⟩ | ⟨_, nl, nc, _, heq⟩
  · rw [Prod.mk.injEq] at heq
    rw [heq.1]
  · rw [Prod.mk.injEq] at heq
    rw [heq.1]

theorem maybeCompact_safe_eq {s s' : KvStore} (h : maybeCompact s = .ok s') :
    s'.safe = s.safe := by
  rcases maybeCompact_ok_iff.mp h with ⟨tr, hev⟩
  rcases maybeCompactEv_cases hev with ⟨_, heq⟩ | ⟨_, nl, nc, _, heq⟩
  · rw [Prod.mk.injEq] at heq
    rw [heq.1]
  · rw [Prod.mk.injEq] at heq
    rw [heq.1]

theorem maybeCompact_WF_keys {s s' : KvStore} (hWF : WF s)
    (h : maybeCompact s = .ok s') : WF s' ∧ keysA s'.cache = keysA s.cache := by
  rcases maybeCompact_ok_iff.mp h with ⟨tr, hev⟩
  rcases maybeCompactEv_cases hev with ⟨_, heq⟩ | ⟨_, nl, nc, hcl, heq⟩
  · rw [Prod.mk.injEq] at heq
    rw [heq.1]
    exact ⟨hWF, rfl⟩
  · rw [Prod.mk.injEq] at heq
    rcases compactLoop_ok_char s.cache [] nl [] nc (by simpa [keysA] using hWF) hcl with
      ⟨h1, h2, h3⟩
    have hkeys : keysA nc = keysA s.cache := by
      rw [h2]
      simpa using keysA_offsetsFrom 0 s.cache
    rw [heq.1]
    constructor
    · show (keysA nc).Nodup
      rw [hkeys]; exact hWF
    · exact hkeys

theorem maybeCompact_Inv {s s' : KvStore} (hWF : WF s) (hInv : Inv s)
    (h : maybeCompact s = .ok s') : Inv s' := by
  rcases maybeCompact_ok_iff.mp h with ⟨tr, hev⟩
  rcases maybeCompactEv_cases hev with ⟨_, heq⟩ | ⟨_, nl, nc, hcl, heq⟩
  · rw [Prod.mk.injEq] at heq
    rw [heq.1]
    exact hInv
  · rw [Prod.mk.injEq] at heq
    rcases compactLoop_ok_char s.cache [] nl [] nc (by simpa [keysA] using hWF) hcl with
      ⟨h1, h2, h3⟩
    rw [heq.1]
    intro p hp
    simp only at hp ⊢
    rw [h2] at hp
    simp only [List.nil_append] at hp
    rcases mem_offsetsFrom 0 s.cache hp with ⟨i, q, hqi, hpe⟩
    have hnl : nl[i]? = some (.set q.1 (valueAtD s.log q)) := by
      rw [h1]
      simp [List.getElem?_map, hqi]
    rw [hpe]
    simp only [entrySetFor, Nat.zero_add]
    rw [hnl]
    simp

theorem maybeCompact_PointsTo {s s' : KvStore} {k v : String} (hWF : WF s)
    (h : maybeCompact s = .ok s') (hP : PointsTo s k v) : PointsTo s' k v := by
  rcases maybeCompact_ok_iff.mp h with ⟨tr, hev⟩
  rcases maybeCompactEv_cases hev with ⟨_, heq⟩ | ⟨_, nl, nc, hcl, heq⟩
  · rw [Prod.mk.injEq] at heq
    rw [heq.1]
    exact hP
  · rw [Prod.mk.injEq] at heq
    rcases hP with ⟨o, hlk, hlog⟩
    rcases compactLoop_ok_char s.cache [] nl [] nc (by simpa [keysA] using hWF) hcl with
      ⟨h1, h2, h3⟩
    have hmem : (k, o) ∈ s.cache := lookupA_mem hlk
    rcases offsetsFrom_lookup hWF hmem 0 with ⟨i, hli, hgi⟩
    refine ⟨i, ?_, ?_⟩
    · rw [heq.1]
      simp only [h2, List.nil_append]
      simpa using hli
    · rw [heq.1]
      simp only [h1, List.nil_append, List.getElem?_map, hgi]
      simp [valueAtD, hlog]

theorem maybeCompact_lookup_none {s s' : KvStore} {k : String} (hWF : WF s)
    (h : maybeCompact s = .ok s') (hn : lookupA s.cache k = none) :
    lookupA s'.cache k = none := by
  have hkeys := (maybeCompact_WF_keys hWF h).2
  rw [lookupA_none_iff] at hn ⊢
  rw [hkeys]
  exact hn

theorem maybeCompact_ok_of_Inv {s : KvStore} (hInv : Inv s) :
    ∃ s', maybeCompact s = .ok s' := by
  by_cases hct : s.modification_ct < COMPACT_MODIFICATION_CT
  · exact ⟨s, maybeCompact_ok_iff.mpr ⟨[], maybeCompactEv_below hct⟩⟩
  · rcases compactLoop_ok_of_consistent s.cache [] [] hInv with ⟨r, hr⟩
    rcases r with ⟨nl, nc⟩
    have hev : maybeCompactEv s = .ok ({ s with log := nl, cache := nc },
        .openTmp :: (s.cache.map (fun p => .writeRecord p.1) ++
          [.flushTmp, .syncTmp, .adoptHandle, .renameTmp, .replaceIndex])) := by
      simp only [maybeCompactEv, if_neg hct, hr]
    exact ⟨_, maybeCompact_ok_iff.mpr ⟨_, hev⟩⟩

theorem maybeCompact_error_shape {s : KvStore} {e : KvsError}
    (h : maybeCompact s = .error e) :
    (∃ k o, e = .logLookup k o) ∨ (∃ k fk o, e = .logEntryKeyMismatch k fk o) ∨
    (∃ k fk o, e = .logEntryKindInvalid k fk o) := by
  rw [maybeCompact_error_iff] at h
  by_cases hct : s.modification_ct < COMPACT_MODIFICATION_CT
  · rw [maybeCompactEv_below hct] at h
    exact absurd h (by simp)
  · simp only [maybeCompactEv, if_neg hct] at h
    cases hcl : compactLoop s.log s.cache [] [] with
    | error e' =>
      rw [hcl] at h
      injection h with h1
      exact h1 ▸ compactLoop_error_shape s.cache [] [] e' hcl
    | ok q =>
      rcases q with ⟨nl, nc⟩
      rw [hcl] at h
      exact absurd h (by simp)

theorem entrySetFor_append {log l2 : List LogEntry} {p : String × Nat}
    (h : entrySetFor log p = true) : entrySetFor (log ++ l2) p = true := by
  unfold entrySetFor at h ⊢
  cases hl : log[p.2]? with
  | none => rw [hl] at h; simp at h
  | some e =>
    rw [hl] at h
    have hlt : p.2 < log.length := (List.getElem?_eq_some.mp hl).1
    rw [List.getElem?_append_left hlt, hl]
    exact h

theorem viewS_of_PointsTo {s : KvStore} {k v : String} (h : PointsTo s k v) :
    viewS s k = some v := by
  rcases h with ⟨o, h1, h2⟩
  simp [viewS, h1, h2]

theorem viewS_of_none {s : KvStore} {k : String} (h : lookupA s.cache k = none) :
    viewS s k = none := by
  simp [viewS, h]

theorem PointsTo_of_lookup_Inv {s : KvStore} {k : String} {o : Nat} (hInv : Inv s)
    (h : lookupA s.cache k = some o) : ∃ v, PointsTo s k v := by
  have he := hInv _ (lookupA_mem h)
  unfold entrySetFor at he
  cases hl : s.log[o]? with
  | none => rw [show ((k, o) : String × Nat).2 = o from rfl, hl] at he; simp at he
  | some e =>
    cases e with
    | remove fk => rw [show ((k, o) : String × Nat).2 = o from rfl, hl] at he; simp at he
    | set fk v =>
      rw [show ((k, o) : String × Nat).2 = o from rfl, hl] at he
      simp only [beq_iff_eq] at he
      exact ⟨v, o, h, by rw [hl, he]⟩

theorem getRun_of_PointsTo {s : KvStore} {k v : String} (h : PointsTo s k v) :
    getRun s k = .ok (some v) := by
  rcases h with ⟨o, h1, h2⟩
  simp [getRun, h1, h2]

theorem getRun_of_none {s : KvStore} {k : String} (h : lookupA s.cache k = none) :
    getRun s k = .ok none := by
  simp [getRun, h]

theorem getRun_of_Inv {s : KvStore} (hInv : Inv s) (k : String) :
    getRun s k = .ok (viewS s k) := by
  cases h : lookupA s.cache k with
  | none => rw [getRun_of_none h, viewS_of_none h]
  | some o =>
    rcases PointsTo_of_lookup_Inv hInv h with ⟨v, hP⟩
    rw [getRun_of_PointsTo hP, viewS_of_PointsTo hP]

theorem maybeCompactIf_WF_keys {flag : Bool} {s s' : KvStore} (hWF : WF s)
    (h : maybeCompactIf flag s = .ok s') : WF s' ∧ keysA s'.cache = keysA s.cache := by
  cases flag with
  | false =>
    simp only [maybeCompactIf, if_neg Bool.false_ne_true] at h
    injection h with h1
    rw [← h1]
    exact ⟨hWF, rfl⟩
  | true =>
    simp only [maybeCompactIf, if_pos rfl] at h
    exact maybeCompact_WF_keys hWF h

theorem maybeCompactIf_Inv {flag : Bool} {s s' : KvStore} (hWF : WF s) (hInv : Inv s)
    (h : maybeCompactIf flag s = .ok s') : Inv s' := by
  cases flag with
  | false =>
    simp only [maybeCompactIf, if_neg Bool.false_ne_true] at h
    injection h with h1
    rw [← h1]
    exact hInv
  | true =>
    simp only [maybeCompactIf, if_pos rfl] at h
    exact maybeCompact_Inv hWF hInv h

theorem maybeCompactIf_PointsTo {flag : Bool} {s s' : KvStore} {k v : String} (hWF : WF s)
    (h : maybeCompactIf flag s = .ok s') (hP : PointsTo s k v) : PointsTo s' k v := by
  cases flag with
  | false =>
    simp only [maybeCompactIf, if_neg Bool.false_ne_true] at h
    injection h with h1
    rw [← h1]
    exact hP
  | true =>
    simp only [maybeCompactIf, if_pos rfl] at h
    exact maybeCompact_PointsTo hWF h hP

theorem maybeCompactIf_lookup_none {flag : Bool} {s s' : KvStore} {k : String} (hWF : WF s)
    (h : maybeCompactIf flag s = .ok s') (hn : lookupA s.cache k = none) :
    lookupA s'.cache k = none := by
  cases flag with
  | false =>
    simp only [maybeCompactIf, if_neg Bool.false_ne_true] at h
    injection h with h1
    rw [← h1]
    exact hn
  | true =>
    simp only [maybeCompactIf, if_pos rfl] at h
    exact maybeCompact_lookup_none hWF h hn

theorem maybeCompactIf_ok_of_Inv (flag : Bool) {s : KvStore} (hInv : Inv s) :
    ∃ s', maybeCompactIf flag s = .ok s' := by
  cases flag with
  | false => exact ⟨s, by simp [maybeCompactIf]⟩
  | true =>
    rcases maybeCompact_ok_of_Inv hInv with ⟨s', h⟩
    exact ⟨s', by simpa [maybeCompactIf] using h⟩

theorem maybeCompactIf_viewS {flag : Bool} {s s' : KvStore} (hWF : WF s) (hInv : Inv s)
    (h : maybeCompactIf flag s = .ok s') : ∀ k, viewS s' k = viewS s k := by
  intro k
  cases hl : lookupA s.cache k with
  | none => rw [viewS_of_none (maybeCompactIf_lookup_none hWF h hl), viewS_of_none hl]
  | some o =>
    rcases PointsTo_of_lookup_Inv hInv hl with ⟨v, hP⟩
    rw [viewS_of_PointsTo (maybeCompactIf_PointsTo hWF h hP), viewS_of_PointsTo hP]

theorem maybeCompactIf_ct {flag : Bool} {s s' : KvStore}
    (h : maybeCompactIf flag s = .ok s') : s'.modification_ct = s.modification_ct := by
  cases flag with
  | false =>
    simp only [maybeCompactIf, if_neg Bool.false_ne_true] at h
    injection h with h1
    rw [← h1]
  | true =>
    simp only [maybeCompactIf, if_pos rfl] at h
    exact maybeCompact_ct h

theorem setAppendState_WF {s : KvStore} (k v : String) (hWF : WF s) :
    WF ({ setIndexUpdate s k with log := s.log ++ [.set k v] } : KvStore) :=
  nodup_keysA_insertA k s.log.length hWF

theorem setAppendState_Inv {s : KvStore} (k v : String) (hInv : Inv s) :
    Inv ({ setIndexUpdate s k with log := s.log ++ [.set k v] } : KvStore) := by
  intro p hp
  simp only [setIndexUpdate] at hp
  rcases mem_insertA hp with h1 | h1
  · rw [h1]
    simp only [entrySetFor]
    rw [List.getElem?_concat_length]
    simp
  · exact entrySetFor_append (hInv p h1)

theorem setAppendState_PointsTo (s : KvStore) (k v : String) :
    PointsTo ({ setIndexUpdate s k with log := s.log ++ [.set k v] } : KvStore) k v := by
  refine ⟨s.log.length, ?_, ?_⟩
  · simp only [setIndexUpdate]
    exact lookupA_insertA_self s.cache k s.log.length
  · exact List.getElem?_concat_length s.log _

theorem setAppendState_viewS_ne {s : KvStore} {k k2 : String} (v : String) (hInv : Inv s)
    (hne : k2 ≠ k) :
    viewS ({ setIndexUpdate s k with log := s.log ++ [.set k v] } : KvStore) k2
      = viewS s k2 := by
  cases hl : lookupA s.cache k2 with
  | none =>
    rw [viewS_of_none hl, viewS_of_none]
    simp only [setIndexUpdate]
    rw [lookupA_insertA_ne s.cache s.log.length (Ne.symm hne)]
    exact hl
  | some o =>
    rcases PointsTo_of_lookup_Inv hInv hl with ⟨v2, hP⟩
    rw [viewS_of_PointsTo hP]
    rcases hP with ⟨o', hl', hg'⟩
    refine viewS_of_PointsTo ⟨o', ?_, ?_⟩
    · simp only [setIndexUpdate]
      rw [lookupA_insertA_ne s.cache s.log.length (Ne.symm hne)]
      exact hl'
    · have hlt : o' < s.log.length := (List.getElem?_eq_some.mp hg').1
      rw [List.getElem?_append_left hlt]
      exact hg'

theorem setStep_ok (flag : Bool) {s : KvStore} (hWF : WF s) (hInv : Inv s) (k v : String) :
    ∃ s', stepOp flag s (.set k v) = .ok s' ∧
      WF s' ∧ Inv s' ∧ viewS s' k = some v ∧
      ∀ k2, k2 ≠ k → viewS s' k2 = viewS s k2 := by
  have hWF2 := setAppendState_WF k v hWF
  have hInv2 := setAppendState_Inv k v hInv
  rcases maybeCompactIf_ok_of_Inv flag hInv2 with ⟨s3, h3⟩
  refine ⟨s3, ?_, (maybeCompactIf_WF_keys hWF2 h3).1, maybeCompactIf_Inv hWF2 hInv2 h3,
    ?_, ?_⟩
  · simp only [stepOp, setOp]
    rw [h3]
  · rw [maybeCompactIf_viewS hWF2 hInv2 h3 k]
    exact viewS_of_PointsTo (setAppendState_PointsTo s k v)
  · intro k2 hne
    rw [maybeCompactIf_viewS hWF2 hInv2 h3 k2]
    exact setAppendState_viewS_ne v hInv hne

theorem removeAppendState_WF {s : KvStore} (k : String) (hWF : WF s) :
    WF ({ s with
            modification_ct := s.modification_ct + 1,
            cache := eraseA s.cache k,
            log := s.log ++ [.remove k] } : KvStore) :=
  nodup_keysA_eraseA k hWF

theorem removeAppendState_Inv {s : KvStore} (k : String) (hInv : Inv s) :
    Inv ({ s with
            modification_ct := s.modification_ct + 1,
            cache := eraseA s.cache k,
            log := s.log ++ [.remove k] } : KvStore) := by
  intro p hp
  exact entrySetFor_append (hInv p (mem_eraseA hp))

theorem removeAppendState_viewS_ne {s : KvStore} {k k2 : String} (hInv : Inv s)
    (hne : k2 ≠ k) :
    viewS ({ s with
               modification_ct := s.modification_ct + 1,
               cache := eraseA s.cache k,
               log := s.log ++ [.remove k] } : KvStore) k2 = viewS s k2 := by
  cases hl : lookupA s.cache k2 with
  | none =>
    rw [viewS_of_none hl, viewS_of_none]
    show lookupA (eraseA s.cache k) k2 = none
    rw [lookupA_eraseA_ne s.cache (Ne.symm hne)]
    exact hl
  | some o =>
    rcases PointsTo_of_lookup_Inv hInv hl with ⟨v2, hP⟩
    rw [viewS_of_PointsTo hP]
    rcases hP with ⟨o', hl', hg'⟩
    refine viewS_of_PointsTo ⟨o', ?_, ?_⟩
    · show lookupA (eraseA s.cache k) k2 = some o'
      rw [lookupA_eraseA_ne s.cache (Ne.symm hne)]
      exact hl'
    · have hlt : o' < s.log.length := (List.getElem?_eq_some.mp hg').1
      rw [List.getElem?_append_left hlt]
      exact hg'

theorem removeStep_none {flag : Bool} {s : KvStore} {k : String}
    (h : lookupA s.cache k = none) :
    stepOp flag s (.remove k) = .error (.removeNonexistentKey k) := by
  simp only [stepOp, removeOp]
  rw [h]

theorem removeStep_some (flag : Bool) {s : KvStore} {k : String} {o : Nat}
    (hWF : WF s) (hInv : Inv s) (h : lookupA s.cache k = some o) :
    ∃ s', stepOp flag s (.remove k) = .ok s' ∧ WF s' ∧ Inv s' ∧
      viewS s' k = none ∧ ∀ k2, k2 ≠ k → viewS s' k2 = viewS s k2 := by
  have hWF2 := removeAppendState_WF k hWF
  have hInv2 := removeAppendState_Inv k hInv
  rcases maybeCompactIf_ok_of_Inv flag hInv2 with ⟨s3, h3⟩
  refine ⟨s3, ?_, (maybeCompactIf_WF_keys hWF2 h3).1, maybeCompactIf_Inv hWF2 hInv2 h3,
    ?_, ?_⟩
  · simp only [stepOp, removeOp, h]
    rw [h3]
  · refine viewS_of_none (maybeCompactIf_lookup_none hWF2 h3 ?_)
    exact lookupA_eraseA_self s.cache k
  · intro k2 hne
    rw [maybeCompactIf_viewS hWF2 hInv2 h3 k2]
    exact removeAppendState_viewS_ne hInv hne

theorem getStep_Inv {flag : Bool} {s : KvStore} (hInv : Inv s) (k : String) :
    stepOp flag s (.get k) = .ok s := by
  simp only [stepOp]
  rw [getRun_of_Inv hInv k]

/-- The simulation relation between an engine state and the functional
reference model: the engine is well-formed and consistent, and its view
of every key is the reference map's binding. -/
def Rrel (s : KvStore) (m : AbsMap) : Prop :=
  WF s ∧ Inv s ∧ ∀ k, viewS s k = lookupA m k

theorem absStep_correspond (flag : Bool) {s : KvStore} {m : AbsMap} (hR : Rrel s m)
    (op : Op) :
    (∀ m', absStep m op = .ok m' → ∃ s', stepOp flag s op = .ok s' ∧ Rrel s' m') ∧
    (∀ e, absStep m op = .error e → stepOp flag s op = .error e) := by
  rcases hR with ⟨hWF, hInv, hview⟩
  cases op with
  | set k v =>
    constructor
    · intro m' hm
      simp only [absStep] at hm
      injection hm with hm
      rcases setStep_ok flag hWF hInv k v with ⟨s', hstep, hWF', hInv', hvk, hvne⟩
      refine ⟨s', hstep, hWF', hInv', ?_⟩
      intro k2
      by_cases hk : k2 = k
      · rw [hk, hvk, ← hm, lookupA_insertA_self]
      · rw [hvne k2 hk, hview k2, ← hm, lookupA_insertA_ne m v (Ne.symm hk)]
    · intro e he
      simp [absStep] at he
  | remove k =>
    constructor
    · intro m' hm
      simp only [absStep] at hm
      by_cases hmem : (lookupA m k).isSome = true
      · rw [if_pos hmem] at hm
        injection hm with hm
        have hsome : ∃ o, lookupA s.cache k = some o := by
          cases hl : lookupA s.cache k with
          | some o => exact ⟨o, rfl⟩
          | none =>
            have hv := hview k
            rw [viewS_of_none hl] at hv
            rw [← hv] at hmem
            simp at hmem
        rcases hsome with ⟨o, ho⟩
        rcases removeStep_some flag hWF hInv ho with
          ⟨s', hstep, hWF', hInv', hvk, hvne⟩
        refine ⟨s', hstep, hWF', hInv', ?_⟩
        intro k2
        by_cases hk : k2 = k
        · rw [hk, hvk, ← hm, lookupA_eraseA_self]
        · rw [hvne k2 hk, hview k2, ← hm, lookupA_eraseA_ne m (Ne.symm hk)]
      · rw [if_neg hmem] at hm
        exact absurd hm (by simp)
    · intro e he
      simp only [absStep] at he
      by_cases hmem : (lookupA m k).isSome = true
      · rw [if_pos hmem] at he
        exact absurd he (by simp)
      · rw [if_neg hmem] at he
        injection he with he
        have hnone : lookupA s.cache k = none := by
          cases hl : lookupA s.cache k with
          | none => rfl
          | some o =>
            rcases PointsTo_of_lookup_Inv hInv hl with ⟨v0, hP⟩
            have hv := hview k
            rw [viewS_of_PointsTo hP] at hv
            rw [← hv] at hmem
            simp at hmem
        rw [removeStep_none hnone, he]
  | get k =>
    constructor
    · intro m' hm
      simp only [absStep] at hm
      injection hm with hm
      exact ⟨s, getStep_Inv hInv k, hm ▸ ⟨hWF, hInv, hview⟩⟩
    · intro e he
      simp [absStep] at he

theorem absRun_correspond (flag : Bool) :
    ∀ (ops : List Op) (s : KvStore) (m : AbsMap), Rrel s m →
    (∀ m', absRun m ops = .ok m' → ∃ s', runOps flag s ops = .ok s' ∧ Rrel s' m') ∧
    (∀ e, absRun m ops = .error e → runOps flag s ops = .error e) := by
  intro ops
  induction ops with
  | nil =>
    intro s m hR
    constructor
    · intro m' hm
      injection hm with hm
      exact ⟨s, rfl, hm ▸ hR⟩
    · intro e he
      simp [absRun] at he
  | cons op rest ih =>
    intro s m hR
    constructor
    · intro m' hm
      simp only [absRun] at hm
      cases hstep : absStep m op with
      | error e =>
        rw [hstep] at hm
        exact absurd hm (by simp)
      | ok m1 =>
        rw [hstep] at hm
        rcases (absStep_correspond flag hR op).1 m1 hstep with ⟨s1, hs1, hR1⟩
        rcases (ih s1 m1 hR1).1 m' hm with ⟨s', hs', hR'⟩
        refine ⟨s', ?_, hR'⟩
        simp only [runOps]
        rw [hs1]
        exact hs'
    · intro e he
      simp only [absRun] at he
      cases hstep : absStep m op with
      | error e1 =>
        rw [hstep] at he
        injection he with he
        have hconc := (absStep_correspond flag hR op).2 e1 hstep
        simp only [runOps]
        rw [hconc, he]
      | ok m1 =>
        rw [hstep] at he
        rcases (absStep_correspond flag hR op).1 m1 hstep with ⟨s1, hs1, hR1⟩
        have hrest := (ih s1 m1 hR1).2 e he
        simp only [runOps]
        rw [hs1]
        exact hrest

theorem Rrel_store0 : Rrel store0 [] := by
  refine ⟨?_, ?_, ?_⟩
  · simp [WF, store0, keysA]
  · intro p hp
    simp [store0] at hp
  · intro k
    simp [viewS, store0, lookupA]

theorem stepOp_set_ok_elim {flag : Bool} {s : KvStore} {k v : String} {s' : KvStore}
    (h : stepOp flag s (.set k v) = .ok s') :
    maybeCompactIf flag { setIndexUpdate s k with log := s.log ++ [.set k v] } = .ok s' := by
  simp only [stepOp, setOp] at h
  cases hmc : maybeCompactIf flag { setIndexUpdate s k with log := s.log ++ [.set k v] } with
  | error e =>
    rw [hmc] at h
    simp at h
  | ok s3 =>
    rw [hmc] at h
    simp at h
    rw [h]

theorem stepOp_remove_ok_elim {flag : Bool} {s : KvStore} {k : String} {s' : KvStore}
    (h : stepOp flag s (.remove k) = .ok s') :
    (∃ o, lookupA s.cache k = some o) ∧
    maybeCompactIf flag
      { s with
          modification_ct := s.modification_ct + 1,
          cache := eraseA s.cache k,
          log := s.log ++ [.remove k] } = .ok s' := by
  simp only [stepOp, removeOp] at h
  cases hl : lookupA s.cache k with
  | none =>
    rw [hl] at h
    simp at h
  | some o =>
    rw [hl] at h
    refine ⟨⟨o, rfl⟩, ?_⟩
    cases hmc : maybeCompactIf flag
        { s with
            modification_ct := s.modification_ct + 1,
            cache := eraseA s.cache k,
            log := s.log ++ [.remove k] } with
    | error e =>
      rw [hmc] at h
      simp at h
    | ok s3 =>
      rw [hmc] at h
      simp at h
      rw [h]

theorem stepOp_get_ok_elim {flag : Bool} {s : KvStore} {k : String} {s' : KvStore}
    (h : stepOp flag s (.get k) = .ok s') : s' = s := by
  simp only [stepOp] at h
  cases hg : getRun s k with
  | error e =>
    rw [hg] at h
    simp at h
  | ok r =>
    rw [hg] at h
    simp at h
    rw [h]

theorem stepOp_WF {flag : Bool} {s : KvStore} {op : Op} {s' : KvStore} (hWF : WF s)
    (h : stepOp flag s op = .ok s') : WF s' := by
  cases op with
  | set k v =>
    exact (maybeCompactIf_WF_keys (setAppendState_WF k v hWF) (stepOp_set_ok_elim h)).1
  | remove k =>
    exact (maybeCompactIf_WF_keys (removeAppendState_WF k hWF) (stepOp_remove_ok_elim h).2).1
  | get k =>
    rw [stepOp_get_ok_elim h]
    exact hWF

theorem stepOp_PointsTo {flag : Bool} {s : KvStore} {op : Op} {s' : KvStore} {k v : String}
    (hWF : WF s) (hP : PointsTo s k v) (ht : touches k op = false)
    (h : stepOp flag s op = .ok s') : PointsTo s' k v := by
  cases op with
  | set k2 v2 =>
    have hne : k2 ≠ k := by simpa [touches] using ht
    refine maybeCompactIf_PointsTo (setAppendState_WF k2 v2 hWF) (stepOp_set_ok_elim h) ?_
    rcases hP with ⟨o, hl, hg⟩
    refine ⟨o, ?_, ?_⟩
    · simp only [setIndexUpdate]
      rw [lookupA_insertA_ne s.cache s.log.length hne]
      exact hl
    · have hlt : o < s.log.length := (List.getElem?_eq_some.mp hg).1
      show (s.log ++ [LogEntry.set k2 v2])[o]? = some (.set k v)
      rw [List.getElem?_append_left hlt]
      exact hg
  | remove k2 =>
    have hne : k2 ≠ k := by simpa [touches] using ht
    refine maybeCompactIf_PointsTo (removeAppendState_WF k2 hWF)
      (stepOp_remove_ok_elim h).2 ?_
    rcases hP with ⟨o, hl, hg⟩
    refine ⟨o, ?_, ?_⟩
    · show lookupA (eraseA s.cache k2) k = some o
      rw [lookupA_eraseA_ne s.cache hne]
      exact hl
    · have hlt : o < s.log.length := (List.getElem?_eq_some.mp hg).1
      show (s.log ++ [LogEntry.remove k2])[o]? = some (.set k v)
      rw [List.getElem?_append_left hlt]
      exact hg
  | get k2 =>
    rw [stepOp_get_ok_elim h]
    exact hP

theorem runOps_PointsTo {flag : Bool} :
    ∀ (ops : List Op) (s s' : KvStore) (k v : String), WF s → PointsTo s k v →
      (∀ op ∈ ops, touches k op = false) → runOps flag s ops = .ok s' →
      PointsTo s' k v ∧ WF s' := by
  intro ops
  induction ops with
  | nil =>
    intro s s' k v hWF hP _ h
    injection h with h1
    rw [← h1]
    exact ⟨hP, hWF⟩
  | cons op rest ih =>
    intro s s' k v hWF hP htouch h
    simp only [runOps] at h
    cases hstep : stepOp flag s op with
    | error e =>
      rw [hstep] at h
      exact absurd h (by simp)
    | ok s1 =>
      rw [hstep] at h
      exact ih s1 s' k v (stepOp_WF hWF hstep)
        (stepOp_PointsTo hWF hP (htouch op (List.mem_cons_self _ _)) hstep)
        (fun o2 ho2 => htouch o2 (List.mem_cons_of_mem _ ho2)) h

theorem replayAux_WF :
    ∀ (rest : List LogEntry) (c : Cache) (ct offs : Nat),
      (keysA c).Nodup → (keysA (replayAux c ct offs rest).cache).Nodup := by
  intro rest
  induction rest with
  | nil =>
    intro c ct offs h
    exact h
  | cons e rest ih =>
    intro c ct offs h
    cases e with
    | set k v =>
      simp only [replayAux, replayStep]
      exact ih _ _ _ (nodup_keysA_insertA k offs h)
    | remove k =>
      simp only [replayAux, replayStep]
      exact ih _ _ _ (nodup_keysA_eraseA k h)

theorem replayAux_Inv (log : List LogEntry) :
    ∀ (rest : List LogEntry) (c : Cache) (ct offs : Nat),
      (∀ p ∈ c, entrySetFor log p = true) →
      (∀ i e, rest[i]? = some e → log[offs + i]? = some e) →
      ∀ p ∈ (replayAux c ct offs rest).cache, entrySetFor log p = true := by
  intro rest
  induction rest with
  | nil =>
    intro c ct offs h1 _ p hp
    exact h1 p hp
  | cons e rest ih =>
    intro c ct offs h1 h2 p hp
    cases e with
    | set k v =>
      simp only [replayAux, replayStep] at hp
      refine ih (insertA c k offs) _ (offs + 1) ?_ ?_ p hp
      · intro q hq
        rcases mem_insertA hq with hq1 | hq1
        · rw [hq1]
          have hk : log[offs]? = some (.set k v) := by
            have := h2 0 (.set k v) (by simp)
            simpa using this
          simp only [entrySetFor]
          rw [hk]
          simp
        · exact h1 q hq1
      · intro i e' hi
        have := h2 (i + 1) e' (by simpa using hi)
        rw [show offs + (i + 1) = offs + 1 + i by omega] at this
        exact this
    | remove k =>
      simp only [replayAux, replayStep] at hp
      refine ih (eraseA c k) _ (offs + 1) ?_ ?_ p hp
      · intro q hq
        exact h1 q (mem_eraseA hq)
      · intro i e' hi
        have := h2 (i + 1) e' (by simpa using hi)
        rw [show offs + (i + 1) = offs + 1 + i by omega] at this
        exact this

/-- The engine state `KvStore::open` constructs right before its final
`maybe_compact` call: cache and counter from the recovery loop, the log
unchanged, `safe = false`. -/
def openPre (log : List LogEntry) : KvStore :=
  { log := log,
    cache := (replayAux [] 0 0 log).cache,
    modification_ct := (replayAux [] 0 0 log).modification_ct,
    safe := false }

theorem openModel_eq (log : List LogEntry) :
    openModel log = maybeCompact (openPre log) := rfl

theorem openPre_WF (log : List LogEntry) : WF (openPre log) :=
  replayAux_WF log [] 0 0 (by simp [keysA])

theorem openPre_Inv (log : List LogEntry) : Inv (openPre log) := fun p hp =>
  replayAux_Inv log log [] 0 0 (by simp) (fun i e hi => by simpa using hi) p hp

theorem openModel_WF_Inv {log : List LogEntry} {s : KvStore}
    (h : openModel log = .ok s) : WF s ∧ Inv s := by
  rw [openModel_eq] at h
  exact ⟨(maybeCompact_WF_keys (openPre_WF log) h).1,
    maybeCompact_Inv (openPre_WF log) (openPre_Inv log) h⟩

theorem stepOp_Inv {flag : Bool} {s : KvStore} {op : Op} {s' : KvStore}
    (hWF : WF s) (hInv : Inv s) (h : stepOp flag s op = .ok s') : Inv s' := by
  cases op with
  | set k v =>
    exact maybeCompactIf_Inv (setAppendState_WF k v hWF) (setAppendState_Inv k v hInv)
      (stepOp_set_ok_elim h)
  | remove k =>
    exact maybeCompactIf_Inv (removeAppendState_WF k hWF) (removeAppendState_Inv k hInv)
      (stepOp_remove_ok_elim h).2
  | get k =>
    rw [stepOp_get_ok_elim h]
    exact hInv

theorem runOps_WF_Inv {flag : Bool} :
    ∀ (ops : List Op) (s s' : KvStore), WF s → Inv s → runOps flag s ops = .ok s' →
      WF s' ∧ Inv s' := by
  intro ops
  induction ops with
  | nil =>
    intro s s' hWF hInv h
    injection h with h1
    rw [← h1]
    exact ⟨hWF, hInv⟩
  | cons op rest ih =>
    intro s s' hWF hInv h
    simp only [runOps] at h
    cases hstep : stepOp flag s op with
    | error e =>
      rw [hstep] at h
      exact absurd h (by simp)
    | ok s1 =>
      rw [hstep] at h
      exact ih s1 s' (stepOp_WF hWF hstep) (stepOp_Inv hWF hInv hstep) h

theorem removeOp_none_eq {flag : Bool} {s : KvStore} {k : String}
    (h : lookupA s.cache k = none) :
    removeOp flag s k = (s, some (.removeNonexistentKey k)) := by
  simp only [removeOp, h]

theorem offsetsFrom_length (b : Nat) (cc : List (String × Nat)) :
    (offsetsFrom b cc).length = cc.length := by
  induction cc generalizing b with
  | nil => rfl
  | cons p rest ih => simp [offsetsFrom, ih]

/-- A reachable engine state at the compaction threshold: one live,
consistent key and `modification_ct = 20` (as after 21 successive
`set("a", _)` calls, observed just as `maybe_compact` begins). -/
def sThresh : KvStore :=
  { log := [.set "a" "x"], cache := [("a", 0)], modification_ct := 20, safe := false }

/-- A fixed call sequence of 21 `set`s of one key, enough to drive
`modification_ct` to the threshold and trigger a compaction. -/
def ops21 : List Op := List.replicate 21 (.set "k" "v")

/-- C1: the claim states that after a successful compaction
`modification_ct` equals 0.  The source's `maybe_compact`
(`src/lib.rs` lines 251-320) never writes `modification_ct`, so at the
threshold state `sThresh` (counter 20, so compaction does run, as the
first conjunct shows) the compaction succeeds and the counter is still
20, not 0. -/
theorem c1_modification_ct_not_reset_after_compaction :
    COMPACT_MODIFICATION_CT ≤ sThresh.modification_ct ∧
    (maybeCompact sThresh).map KvStore.modification_ct = .ok 20 ∧
    (20 : Nat) ≠ 0 :=
  ⟨by decide, rfl, by decide⟩

/-- C3 counterexample: the claim states the new file handle is adopted
only after the rename has succeeded.  At the threshold state `sThresh`
the compaction succeeds, and in its action trace no `renameTmp` precedes
the `adoptHandle` event (`renameSeenBeforeAdopt` is false): the source
assigns `self.log_f = tmp_log` on line 314, before the `rename` on line
315. -/
theorem c3_adopt_after_rename_counterexample :
    ∃ s' tr, maybeCompactEv sThresh = .ok (s', tr) ∧
      renameSeenBeforeAdopt false tr = false :=
  ⟨_, _, rfl, rfl⟩

/-- C3 amended: in every successful run of `maybe_compact` the trace is
either empty (below the threshold) or ends with flush, sync,
adopt-handle, rename, replace-index, in that order: the new file handle
is adopted after the temp file's sync and immediately BEFORE the rename,
and the Index is replaced after the rename. -/
theorem c3_adopt_immediately_before_rename {s s' : KvStore} {tr : List CEvent}
    (h : maybeCompactEv s = .ok (s', tr)) :
    tr = [] ∨
      ∃ pre, tr = pre ++ [.flushTmp, .syncTmp, .adoptHandle, .renameTmp, .replaceIndex] := by
  rcases maybeCompactEv_cases h with ⟨_, heq⟩ | ⟨_, nl, nc, _, heq⟩
  · rw [Prod.mk.injEq] at heq
    exact .inl heq.2
  · rw [Prod.mk.injEq] at heq
    refine .inr ⟨.openTmp :: s.cache.map (fun p => .writeRecord p.1), ?_⟩
    rw [heq.2]
    simp

/-- C3 witness: the amended statement instantiated at the concrete
threshold state. -/
theorem c3_amended_witness :
    ∃ s' tr, maybeCompactEv sThresh = .ok (s', tr) ∧
      (tr = [] ∨
        ∃ pre, tr = pre ++ [.flushTmp, .syncTmp, .adoptHandle, .renameTmp, .replaceIndex]) := by
  refine ⟨_, _, rfl, ?_⟩
  exact @c3_adopt_immediately_before_rename sThresh _ _ rfl

/-- C4 counterexample: the claim states that during recovery a `Remove`
record for a key absent from the Index leaves `modification_ct`
unchanged.  Replaying `Remove{"a"}` against an empty Index (where `"a"`
is certainly absent) takes the counter from 0 to 1: the source
(`src/lib.rs` lines 227-230) increments unconditionally. -/
theorem c4_remove_absent_key_counterexample :
    lookupA ([] : Cache) "a" = none ∧
    (replayStep [] 0 0 (.remove "a")).modification_ct = 1 ∧
    (1 : Nat) ≠ 0 :=
  ⟨rfl, rfl, by decide⟩

/-- C4 amended: the recovery loop of `open` increments `modification_ct`
on every decoded `Remove{key}` record, whether or not `key` is currently
present in the Index, and removes the key. -/
theorem c4_recovery_remove_always_increments (c : Cache) (ct offs : Nat) (k : String) :
    replayStep c ct offs (.remove k) = ⟨eraseA c k, ct + 1⟩ := rfl

/-- C2: read-your-writes and last-writer-wins.  First conjunct: from any
well-formed state, after a successful `set(k, v)`, any successfully
executed sequence of further calls none of which is a `set(k, _)` or
`remove(k)` leaves `get(k)` returning `Some(v)`.  Second conjunct: after
`set(k, v1); set(k, v2)`, `get(k)` returns `Some(v2)`. -/
theorem c2_read_your_writes_last_writer_wins :
    (∀ (s s1 s2 : KvStore) (k v : String) (ops : List Op), WF s →
      stepOp true s (.set k v) = .ok s1 → runOps true s1 ops = .ok s2 →
      (∀ op ∈ ops, touches k op = false) → getRun s2 k = .ok (some v)) ∧
    (∀ (s s1 s2 : KvStore) (k v1 v2 : String), WF s →
      stepOp true s (.set k v1) = .ok s1 → stepOp true s1 (.set k v2) = .ok s2 →
      getRun s2 k = .ok (some v2)) := by
  have main : ∀ (s s1 s2 : KvStore) (k v : String) (ops : List Op), WF s →
      stepOp true s (.set k v) = .ok s1 → runOps true s1 ops = .ok s2 →
      (∀ op ∈ ops, touches k op = false) → getRun s2 k = .ok (some v) := by
    intro s s1 s2 k v ops hWF h1 h2 htouch
    have hP1 : PointsTo s1 k v :=
      maybeCompactIf_PointsTo (setAppendState_WF k v hWF) (stepOp_set_ok_elim h1)
        (setAppendState_PointsTo s k v)
    exact getRun_of_PointsTo (runOps_PointsTo ops s1 s2 k v (stepOp_WF hWF h1) hP1 htouch h2).1
  refine ⟨main, ?_⟩
  intro s s1 s2 k v1 v2 hWF h1 h2
  exact main s1 s2 s2 k v2 [] (stepOp_WF hWF h1) h2 rfl (by simp)

/-- C2 witness: in the empty store, `set("a","1")` followed by
`set("b","2")` leaves `get("a")` returning `Some("1")`. -/
theorem c2_witness :
    ∃ s1 s2, stepOp true store0 (.set "a" "1") = .ok s1 ∧
      runOps true s1 [.set "b" "2"] = .ok s2 ∧ getRun s2 "a" = .ok (some "1") := by
  refine ⟨_, _, rfl, rfl, ?_⟩
  exact c2_read_your_writes_last_writer_wins.1 store0 _ _ "a" "1" [.set "b" "2"]
    (by decide) rfl rfl (by decide)

/-- C5: `remove(k)` returns `RemoveNonexistentKey{k}` exactly when `k` is
not in the Index, and in that case the state is returned untouched;
consequently after `set(k, v); remove(k)` a `get(k)` yields `None` and a
second `remove(k)` fails with `RemoveNonexistentKey{k}`. -/
theorem c5_remove_nonexistent_key :
    (∀ (s : KvStore) (k : String),
      (removeOp true s k).2 = some (.removeNonexistentKey k) ↔
        lookupA s.cache k = none) ∧
    (∀ (s : KvStore) (k : String), lookupA s.cache k = none →
      removeOp true s k = (s, some (.removeNonexistentKey k))) ∧
    (∀ (s s1 s2 : KvStore) (k v : String), WF s →
      stepOp true s (.set k v) = .ok s1 → stepOp true s1 (.remove k) = .ok s2 →
      getRun s2 k = .ok none ∧
        (removeOp true s2 k).2 = some (.removeNonexistentKey k)) := by
  have habsent : ∀ (s : KvStore) (k : String), lookupA s.cache k = none →
      removeOp true s k = (s, some (.removeNonexistentKey k)) := by
    intro s k h
    exact removeOp_none_eq h
  have hiff : ∀ (s : KvStore) (k : String),
      (removeOp true s k).2 = some (.removeNonexistentKey k) ↔
        lookupA s.cache k = none := by
    intro s k
    constructor
    · intro h
      cases hl : lookupA s.cache k with
      | none => rfl
      | some o =>
        exfalso
        simp only [removeOp, hl] at h
        cases hmc : maybeCompactIf true
            { s with
                modification_ct := s.modification_ct + 1,
                cache := eraseA s.cache k,
                log := s.log ++ [.remove k] } with
        | ok s3 =>
          rw [hmc] at h
          simp at h
        | error e =>
          rw [hmc] at h
          simp only at h
          injection h with h1
          simp only [maybeCompactIf, if_pos rfl] at hmc
          rcases maybeCompact_error_shape hmc with ⟨k1, o1, he⟩ | ⟨k1, f1, o1, he⟩ |
            ⟨k1, f1, o1, he⟩ <;> rw [he] at h1 <;> exact absurd h1 (by simp)
    · intro h
      rw [removeOp_none_eq h]
  refine ⟨hiff, habsent, ?_⟩
  intro s s1 s2 k v hWF h1 h2
  have hWF1 : WF s1 := stepOp_WF hWF h1
  have hnone : lookupA s2.cache k = none :=
    maybeCompactIf_lookup_none (removeAppendState_WF k hWF1) (stepOp_remove_ok_elim h2).2
      (lookupA_eraseA_self s1.cache k)
  refine ⟨getRun_of_none hnone, ?_⟩
  rw [removeOp_none_eq hnone]

/-- C5 witness: in the empty store, `set("a","1"); remove("a")` makes
`get("a")` return `None` and a second `remove("a")` fail with
`RemoveNonexistentKey{"a"}`. -/
theorem c5_witness :
    ∃ s1 s2, stepOp true store0 (.set "a" "1") = .ok s1 ∧
      stepOp true s1 (.remove "a") = .ok s2 ∧
      getRun s2 "a" = .ok none ∧
      (removeOp true s2 "a").2 = some (.removeNonexistentKey "a") := by
  refine ⟨_, _, rfl, rfl, ?_⟩
  exact c5_remove_nonexistent_key.2.2 store0 _ _ "a" "1" (by decide) rfl rfl

/-- C6: compaction is transparent.  For every call sequence that runs
successfully from a fresh engine with compaction enabled, the same
sequence also runs successfully with compaction disabled, and `get`
returns the same answer for every key in the two final states. -/
theorem c6_compaction_transparent :
    ∀ (ops : List Op) (sC : KvStore), runOps true store0 ops = .ok sC →
      ∃ sN, runOps false store0 ops = .ok sN ∧ ∀ k, getRun sC k = getRun sN k := by
  intro ops sC hC
  cases habs : absRun [] ops with
  | error e =>
    rw [(absRun_correspond true ops store0 [] Rrel_store0).2 e habs] at hC
    exact absurd hC (by simp)
  | ok m =>
    rcases (absRun_correspond true ops store0 [] Rrel_store0).1 m habs with ⟨sC', hC', hRC⟩
    rcases (absRun_correspond false ops store0 [] Rrel_store0).1 m habs with ⟨sN, hN, hRN⟩
    rw [hC'] at hC
    injection hC with hCC
    rw [← hCC]
    refine ⟨sN, hN, ?_⟩
    intro k
    rw [getRun_of_Inv hRC.2.1 k, getRun_of_Inv hRN.2.1 k, hRC.2.2 k, hRN.2.2 k]

/-- C6 witness: 21 `set("k", "v")` calls trigger a compaction under the
compacting run; the non-compacting run succeeds too and every `get`
agrees between the two final states. -/
theorem c6_witness :
    ∃ sC, runOps true store0 ops21 = .ok sC ∧
      ∃ sN, runOps false store0 ops21 = .ok sN ∧ ∀ k, getRun sC k = getRun sN k := by
  refine ⟨_, rfl, ?_⟩
  exact c6_compaction_transparent ops21 _ rfl

/-- C7: the index invariant.  `Inv` states that every key in the Index
points at an offset where decoding one record succeeds and yields a
`Set` record for that very key.  `open` establishes it (together with
well-formedness of the Index), every public call preserves it, a
successful `maybe_compact` preserves it, and hence it holds after any
successful call sequence on a freshly opened engine. -/
theorem c7_index_points_at_own_set_record :
    (∀ (log : List LogEntry) (s : KvStore), openModel log = .ok s → WF s ∧ Inv s) ∧
    (∀ (s s' : KvStore) (op : Op), WF s → Inv s → stepOp true s op = .ok s' →
      WF s' ∧ Inv s') ∧
    (∀ (s s' : KvStore), WF s → Inv s → maybeCompact s = .ok s' → WF s' ∧ Inv s') ∧
    (∀ (log : List LogEntry) (ops : List Op) (s0 s : KvStore), openModel log = .ok s0 →
      runOps true s0 ops = .ok s → WF s ∧ Inv s) := by
  refine ⟨fun log s h => openModel_WF_Inv h, ?_, ?_, ?_⟩
  · intro s s' op hWF hInv h
    exact ⟨stepOp_WF hWF h, stepOp_Inv hWF hInv h⟩
  · intro s s' hWF hInv h
    exact ⟨(maybeCompact_WF_keys hWF h).1, maybeCompact_Inv hWF hInv h⟩
  · intro log ops s0 s h0 h
    rcases openModel_WF_Inv h0 with ⟨hWF0, hInv0⟩
    exact runOps_WF_Inv ops s0 s hWF0 hInv0 h

/-- C7 witness: opening a one-record log yields a state satisfying the
invariant. -/
theorem c7_witness :
    ∃ s, openModel [.set "a" "x"] = .ok s ∧ WF s ∧ Inv s := by
  refine ⟨_, rfl, ?_⟩
  exact c7_index_points_at_own_set_record.1 [.set "a" "x"] _ rfl

/-- C8: immediately after a compaction that actually ran (the counter was
at the threshold) succeeds, the log contains exactly one record per key
of the Index — as many records as Index entries, every record a `Set`,
the record keys being exactly the (pairwise distinct) Index keys, in
order. -/
theorem c8_compacted_log_one_set_per_key {s s' : KvStore} {tr : List CEvent}
    (hWF : WF s) (hth : COMPACT_MODIFICATION_CT ≤ s.modification_ct)
    (h : maybeCompactEv s = .ok (s', tr)) :
    s'.log.length = s'.cache.length ∧
    (∀ e ∈ s'.log, ∃ k v, e = .set k v) ∧
    s'.log.map LogEntry.entryKey = keysA s'.cache ∧
    (keysA s'.cache).Nodup := by
  rcases maybeCompactEv_cases h with ⟨hlt, _⟩ | ⟨_, nl, nc, hcl, heq⟩
  · omega
  · rw [Prod.mk.injEq] at heq
    rcases compactLoop_ok_char s.cache [] nl [] nc (by simpa [keysA] using hWF) hcl with
      ⟨h1, h2, _⟩
    simp only [List.nil_append] at h1 h2
    have hkeys : keysA nc = keysA s.cache := by
      rw [h2]
      simpa using keysA_offsetsFrom 0 s.cache
    rw [heq.1]
    refine ⟨?_, ?_, ?_, ?_⟩
    · show nl.length = nc.length
      rw [h1, h2]
      simp [offsetsFrom_length]
    · intro e he
      rw [h1] at he
      rcases List.mem_map.mp he with ⟨p, _, hpe⟩
      exact ⟨p.1, valueAtD s.log p, hpe.symm⟩
    · show nl.map LogEntry.entryKey = keysA nc
      rw [h1, hkeys, List.map_map]
      simp [keysA, LogEntry.entryKey]
    · show (keysA nc).Nodup
      rw [hkeys]
      exact hWF

/-- C8 witness: the compacted-log shape at the concrete threshold
state. -/
theorem c8_witness :
    ∃ s' tr, maybeCompactEv sThresh = .ok (s', tr) ∧
      (s'.log.length = s'.cache.length ∧
       (∀ e ∈ s'.log, ∃ k v, e = .set k v) ∧
       s'.log.map LogEntry.entryKey = keysA s'.cache ∧
       (keysA s'.cache).Nodup) := by
  refine ⟨_, _, rfl, ?_⟩
  exact @c8_compacted_log_one_set_per_key sThresh _ _ (by decide) (by decide) rfl

/-- C9: `get(k)` for a key absent from the Index returns `Ok(None)` — a
miss is not an error — and the answer does not depend on the log at all
(no log read is performed: the same result obtains whatever the log
contents). -/
theorem c9_get_missing_key_not_error (s : KvStore) (k : String)
    (h : lookupA s.cache k = none) :
    getRun s k = .ok none ∧ ∀ l, getRun { s with log := l } k = .ok none := by
  refine ⟨getRun_of_none h, ?_⟩
  intro l
  exact getRun_of_none h

/-- C9 witness: a `get` on the empty store. -/
theorem c9_witness :
    getRun store0 "a" = .ok none ∧ ∀ l, getRun { store0 with log := l } "a" = .ok none :=
  c9_get_missing_key_not_error store0 "a" rfl

/-- C10: `set` and `remove` mutate the in-memory state before appending,
and that mutation survives an append failure.  If `set(k, v)`'s append
fails, `LogAppendSet{k, v}` is returned while the Index already maps `k`
to the end-of-file offset — at which no record exists — and
`modification_ct` keeps its conditional increment; if `remove(k)`'s
append fails (the key was present, or `remove` would have returned
earlier), `LogAppendRemove{k}` is returned while `k` is already deleted
and `modification_ct` keeps its increment.  The log is unchanged in both
cases. -/
theorem c10_state_mutated_before_append :
    (∀ (s : KvStore) (k v : String),
      (setAppendFail s k v).2 = .logAppendSet k v ∧
      lookupA (setAppendFail s k v).1.cache k = some s.log.length ∧
      (setAppendFail s k v).1.log = s.log ∧
      s.log[s.log.length]? = none ∧
      (setAppendFail s k v).1.modification_ct =
        (if (lookupA s.cache k).isSome then s.modification_ct + 1
         else s.modification_ct)) ∧
    (∀ (s : KvStore) (k : String), (lookupA s.cache k).isSome = true →
      (removeAppendFail s k).2 = .logAppendRemove k ∧
      lookupA (removeAppendFail s k).1.cache k = none ∧
      (removeAppendFail s k).1.log = s.log ∧
      (removeAppendFail s k).1.modification_ct = s.modification_ct + 1) := by
  constructor
  · intro s k v
    refine ⟨rfl, ?_, rfl, ?_, rfl⟩
    · exact lookupA_insertA_self s.cache k s.log.length
    · exact List.getElem?_len_le (Nat.le_refl _)
  · intro s k _
    exact ⟨rfl, lookupA_eraseA_self s.cache k, rfl, rfl⟩

/-- C10 witness: the remove-append-failure facts at the concrete
threshold state, where key `"a"` is present. -/
theorem c10_witness :
    (lookupA sThresh.cache "a").isSome = true ∧
    ((removeAppendFail sThresh "a").2 = .logAppendRemove "a" ∧
     lookupA (removeAppendFail sThresh "a").1.cache "a" = none ∧
     (removeAppendFail sThresh "a").1.log = sThresh.log ∧
     (removeAppendFail sThresh "a").1.modification_ct = sThresh.modification_ct + 1) := by
  refine ⟨by decide, ?_⟩
  exact c10_state_mutated_before_append.2 sThresh "a" (by decide)

end Kvs
